import Mathlib

/-! Verification of the operchain rule-chain engine.

The development shallowly embeds the two components of the repository:

* `src/internal/pcache/pcache.go` — a memoizing boolean-predicate cache.
  Go `*Predicate` pointers become natural-number identities; the immutable
  program (which function each predicate holds) lives in a `Heap`, and the
  mutable run-time data (every cache's table, per-function invocation
  counters, an action log) lives in a `World` that is threaded explicitly.
  In the Go code a predicate's function takes no arguments; the composite
  predicates built by the `Cache.And` / `Cache.Or` / `Cache.Not` methods
  close over the cache that constructed them, which the embedding records
  as the `ccid` field of the corresponding `PredDef` constructor.
  Recursion through arbitrary predicate graphs need not terminate, so the
  evaluator takes fuel and returns `none` on divergence.

* `src/chain.go` — the chain runner.  A `ChainObj` mirrors the mutable
  fields of the Go `Chain` struct (`Rules`, `cache`, `stop`, `err`,
  `interval`); `Run`, `runRules`, `runAct` mirror `Chain.Run` and the
  actions produced by `Requeue`/`Stop`/`Error`/`Sequential`/`Parallel`/
  `Subchain`.  Errors are identified by natural numbers, durations are
  integers (Go `time.Duration` is a signed integer count of nanoseconds).
  `Parallel` launches goroutines and joins them; the embedding executes
  the branches in list order, i.e. one schedule of the fan-out/fan-in,
  and interleaving-independence of the relevant aggregate (the minimum
  requeue delay) is proved separately by running both orders.
  The outcome of `loadResources` (out of scope per the design: an external
  collaborator) is supplied as an `Option` input: `none` means all
  resources loaded, `some e` means loading failed with error `e`.
-/

namespace Operchain

/-- Association-list read, modelling a Go map lookup `val, ok := m[p]`. -/
def lookupA : List (Nat × Bool) → Nat → Option Bool
  | [], _ => none
  | (q, v) :: l, p => if q = p then some v else lookupA l p

/-- Association-list write, modelling a Go map assignment `m[p] = v`
(at most one entry per key; overwrites an existing entry). -/
def insertA : List (Nat × Bool) → Nat → Bool → List (Nat × Bool)
  | [], p, v => [(p, v)]
  | (q, u) :: l, p, v => if q = p then (p, v) :: l else (q, u) :: insertA l p v

/-- The underlying function of a pcache `Predicate`, as data.  A `base`
predicate wraps an opaque external closure (`NewPredicate(f)`); the
composites record the identity `ccid` of the cache whose `And`/`Or`/`Not`
method constructed them, because in the source those methods close over
their receiver cache `c` and evaluate every child via `c.Eval`. -/
inductive PredDef where
  | base (idx : Nat)
  | and (ccid : Nat) (children : List Nat)
  | or (ccid : Nat) (children : List Nat)
  | not (ccid : Nat) (child : Nat)
  | tt (ccid : Nat)
  | ff (ccid : Nat)
deriving DecidableEq, Repr

/-- The immutable part of a run: which `PredDef` each predicate identity
holds, and the behaviour of every external base closure.  `baseFun idx k`
is the value returned by the `k`-th invocation of base closure `idx`,
so non-deterministic or state-changing closures are representable. -/
structure Heap where
  defs : Nat → PredDef
  baseFun : Nat → Nat → Bool

/-- The mutable run-time data: the table of every cache (`caches cid` is
cache `cid`'s association list), an allocator for fresh cache identities,
how often each base closure has been invoked, and a log of executed
opaque actions. -/
structure World where
  caches : Nat → List (Nat × Bool)
  nextCache : Nat
  calls : Nat → Nat
  log : List Nat

/-- `Cache.isInCache`: read predicate `p`'s entry in cache `cid`. -/
def isInCache (w : World) (cid p : Nat) : Option Bool :=
  lookupA (w.caches cid) p

/-- `Cache.addToCache`: store value `v` for predicate `p` in cache `cid`. -/
def addToCache (w : World) (cid p : Nat) (v : Bool) : World :=
  { w with caches := fun c => if c = cid then insertA (w.caches c) p v else w.caches c }

/-- Record one invocation of base closure `idx`. -/
def bumpCall (w : World) (idx : Nat) : World :=
  { w with calls := fun i => if i = idx then w.calls i + 1 else w.calls i }

mutual

/-- `Cache.Eval` from `pcache.go`: return the cached value of `p` in cache
`cid` if present, otherwise invoke `p`'s zero-argument function, store the
result keyed by `p`'s identity in `cid`, and return it.  Fuel bounds the
recursion through composite predicates; `none` models divergence. -/
def Eval (h : Heap) : Nat → Nat → Nat → World → Option (Bool × World)
  | 0, _, _, _ => none
  | n + 1, cid, p, w =>
    match isInCache w cid p with
    | some v => some (v, w)
    | none =>
      match evalDef h n (h.defs p) w with
      | none => none
      | some (v, w1) => some (v, addToCache w1 cid p v)
termination_by n cid p w => (n, 0, 0)

/-- Invocation of a predicate's underlying function `p.f()`.  Base
closures consult `baseFun` at the current invocation count; composites run
against their captured cache `ccid`, exactly as the closures built by
`Cache.And`/`Cache.Or`/`Cache.Not`/`Cache.True`/`Cache.False` do. -/
def evalDef (h : Heap) : Nat → PredDef → World → Option (Bool × World)
  | _, .base idx, w => some (h.baseFun idx (w.calls idx), bumpCall w idx)
  | n, .and ccid ps, w => evalAnd h n ccid ps w
  | n, .or ccid ps, w => evalOr h n ccid ps w
  | n, .not ccid q, w =>
    match Eval h n ccid q w with
    | none => none
    | some (v, w1) => some (!v, w1)
  | _, .tt _, w => some (true, w)
  | _, .ff _, w => some (false, w)
termination_by n d w => (n, 2, 0)

/-- The loop inside the closure built by `Cache.And`: evaluate children
left to right via `c.Eval`, returning false at the first false child. -/
def evalAnd (h : Heap) : Nat → Nat → List Nat → World → Option (Bool × World)
  | _, _, [], w => some (true, w)
  | n, ccid, q :: qs, w =>
    match Eval h n ccid q w with
    | none => none
    | some (false, w1) => some (false, w1)
    | some (true, w1) => evalAnd h n ccid qs w1
termination_by n ccid qs w => (n, 1, qs.length)

/-- The loop inside the closure built by `Cache.Or`: evaluate children
left to right via `c.Eval`, returning true at the first true child. -/
def evalOr (h : Heap) : Nat → Nat → List Nat → World → Option (Bool × World)
  | _, _, [], w => some (false, w)
  | n, ccid, q :: qs, w =>
    match Eval h n ccid q w with
    | none => none
    | some (true, w1) => some (true, w1)
    | some (false, w1) => evalOr h n ccid qs w1
termination_by n ccid qs w => (n, 1, qs.length)

end

/-- The two fields of `ctrl.Result` that `Chain.Run` sets.  Go
`time.Duration` is a signed integer count of nanoseconds, so
`RequeueAfter : Int`. -/
structure CtrlResult where
  Requeue : Bool
  RequeueAfter : Int
deriving DecidableEq, Repr

/-- The actions of `chain.go`, as syntax.  `act i` is an opaque external
action (it only appends `i` to the world's log); `requeue`/`stopA`/`errA`
are the actions produced by `Chain.Requeue`, `Chain.Stop`, `Chain.Error`,
bound to the chain being run; `seq`/`par` are `Sequential`/`Parallel`;
`sub loadErr rules` is `Chain.Subchain` applied to a child chain with the
given rule list, whose resource loading succeeds iff `loadErr = none`. -/
inductive ActionE where
  | act (i : Nat)
  | requeue (d : Int)
  | stopA
  | errA (e : Nat)
  | seq (as : List ActionE)
  | par (as : List ActionE)
  | sub (loadErr : Option Nat) (rules : List (Option Nat × ActionE))

/-- A rule: optional predicate identity (`When`, `none` = no predicate)
and action (`Do`). -/
abbrev RuleE := Option Nat × ActionE

/-- The mutable fields of the Go `Chain` struct relevant to the engine:
the rule list, the identity of the predicate cache allocated by the
current run, and the run state `stop` / `err` / `interval`. -/
structure ChainObj where
  Rules : List RuleE
  cache : Nat
  stop : Bool
  err : Option Nat
  interval : Int

/-- `Chain.doRequeue`: keep the minimum positive requested delay. -/
def doRequeue (c : ChainObj) (interval : Int) : ChainObj :=
  if interval > 0 ∧ (c.interval = 0 ∨ interval < c.interval) then
    { c with interval := interval }
  else c

/-- `Chain.doStop`: set the stop flag. -/
def doStop (c : ChainObj) : ChainObj :=
  { c with stop := true }

/-- `Chain.doError`: record the error, overwriting any previous one. -/
def doError (c : ChainObj) (e : Nat) : ChainObj :=
  { c with err := some e }

mutual

/-- `Chain.Run`: reset `stop`/`err`/`interval`, allocate a fresh predicate
cache, load resources (failure returns the zero `ctrl.Result` with the
load error), then run the rules in order.  Fuel bounds the recursion
through nested subchains and diverging predicates; `none` models
divergence. -/
def Run (h : Heap) : Nat → ChainObj → Option Nat → World → Option ((CtrlResult × Option Nat) × ChainObj × World)
  | 0, _, _, _ => none
  | n + 1, c, loadErr, w =>
    let c1 : ChainObj := { c with stop := false, err := none, interval := 0, cache := w.nextCache }
    let w1 : World := { w with nextCache := w.nextCache + 1 }
    match loadErr with
    | some e => some ((⟨false, 0⟩, some e), c1, w1)
    | none => runRules h n c1.Rules c1 w1
termination_by n c le w => n

/-- The rule loop of `Chain.Run`: a rule's action runs when its `When`
is absent or evaluates true against the run's cache. -/
def runRules (h : Heap) : Nat → List RuleE → ChainObj → World → Option ((CtrlResult × Option Nat) × ChainObj × World)
  | 0, _, _, _ => none
  | _ + 1, [], c, w => some ((⟨true, c.interval⟩, none), c, w)
  | n + 1, (wh, a) :: rest, c, w =>
    match wh with
    | none => runStep h n a rest c w
    | some p =>
      match Eval h n c.cache p w with
      | none => none
      | some (true, w1) => runStep h n a rest c w1
      | some (false, w1) => runRules h n rest c w1
termination_by n rules c w => n

/-- The body of the rule loop once a rule qualifies: execute `rule.Do`,
then check the run state — if `stop` is set or an error is recorded,
return immediately with `Requeue: true`, the current interval, and the
recorded error; otherwise continue with the remaining rules. -/
def runStep (h : Heap) : Nat → ActionE → List RuleE → ChainObj → World → Option ((CtrlResult × Option Nat) × ChainObj × World)
  | 0, _, _, _, _ => none
  | n + 1, a, rest, c, w =>
    match runAct h n a c w with
    | none => none
    | some (c1, w1) =>
      if c1.stop || c1.err.isSome then some ((⟨true, c1.interval⟩, c1.err), c1, w1)
      else runRules h n rest c1 w1
termination_by n a rest c w => n

/-- Execution of a single action.  `par` launches its branches as
goroutines and joins them; executing them in list order realises one
schedule of that fan-out/fan-in.  `sub` is `Chain.Subchain`: run the
child chain to completion, record a child error on the parent, and
request the child's positive requeue-after on the parent. -/
def runAct (h : Heap) : Nat → ActionE → ChainObj → World → Option (ChainObj × World)
  | 0, _, _, _ => none
  | _ + 1, .act i, c, w => some (c, { w with log := w.log ++ [i] })
  | _ + 1, .requeue d, c, w => some (doRequeue c d, w)
  | _ + 1, .stopA, c, w => some (doStop c, w)
  | _ + 1, .errA e, c, w => some (doError c e, w)
  | n + 1, .seq as, c, w => runActs h n as c w
  | n + 1, .par as, c, w => runActs h n as c w
  | n + 1, .sub le rules, c, w =>
    match Run h n ⟨rules, 0, false, none, 0⟩ le w with
    | none => none
    | some ((res, cerr), _, w1) =>
      let c1 := match cerr with
        | some e => doError c e
        | none => c
      let c2 := if res.RequeueAfter > 0 then doRequeue c1 res.RequeueAfter else c1
      some (c2, w1)
termination_by n a c w => n

/-- The loop inside `Sequential` (and one schedule of `Parallel`):
execute the actions in order, threading chain and world state. -/
def runActs (h : Heap) : Nat → List ActionE → ChainObj → World → Option (ChainObj × World)
  | 0, _, _, _ => none
  | _ + 1, [], c, w => some (c, w)
  | n + 1, a :: as, c, w =>
    match runAct h n a c w with
    | none => none
    | some (c1, w1) => runActs h n as c1 w1
termination_by n as c w => n

end

/-! Section: Basic lemmas about the cache table -/

theorem lookupA_insertA_self (l : List (Nat × Bool)) (p : Nat) (v : Bool) :
    lookupA (insertA l p v) p = some v := by
  induction l with
  | nil => simp [insertA, lookupA]
  | cons hd tl ih =>
    obtain ⟨q, u⟩ := hd
    by_cases hq : q = p
    · simp [insertA, hq, lookupA]
    · simp [insertA, hq, lookupA, ih]

theorem lookupA_insertA_ne (l : List (Nat × Bool)) {p q : Nat} (v : Bool) (hpq : p ≠ q) :
    lookupA (insertA l p v) q = lookupA l q := by
  induction l with
  | nil => simp [insertA, lookupA, hpq]
  | cons hd tl ih =>
    obtain ⟨r, u⟩ := hd
    by_cases hr : r = p
    · subst hr
      simp [insertA, lookupA, hpq]
    · simp [insertA, hr, lookupA, ih]

/-- A completed evaluation always leaves the evaluated predicate cached,
with exactly the returned value, in the cache it was evaluated against. -/
theorem Eval_isInCache (h : Heap) {n cid p : Nat} {w w' : World} {v : Bool}
    (he : Eval h n cid p w = some (v, w')) : isInCache w' cid p = some v := by
  cases n with
  | zero => simp [Eval] at he
  | succ m =>
    cases hc : isInCache w cid p with
    | some u =>
      simp only [Eval, hc] at he
      obtain ⟨rfl, rfl⟩ : u = v ∧ w = w' := by simpa using he
      exact hc
    | none =>
      cases hd : evalDef h m (h.defs p) w with
      | none => simp [Eval, hc, hd] at he
      | some r =>
        obtain ⟨u, w1⟩ := r
        simp only [Eval, hc, hd] at he
        obtain ⟨rfl, rfl⟩ : u = v ∧ addToCache w1 cid p u = w' := by simpa using he
        simp [isInCache, addToCache, lookupA_insertA_self]

/-! Section: C2 — memoization: at most one invocation per cache instance -/

/-- Claim C2. For every predicate `p` and cache instance `cid`, a completed
evaluation stores the computed value keyed by `p`'s identity, and every
subsequent evaluation of `p` against that cache returns the memoized
value with the world — in particular every closure's invocation counter —
unchanged: the underlying function is never re-invoked, even though
`baseFun` may give a different answer on a later invocation. -/
theorem eval_memoizes (h : Heap) (n cid p : Nat) (w w' : World) (v : Bool)
    (he : Eval h n cid p w = some (v, w')) :
    isInCache w' cid p = some v ∧ ∀ m, Eval h (m + 1) cid p w' = some (v, w') := by
  have hc := Eval_isInCache h he
  exact ⟨hc, fun m => by simp [Eval, hc]⟩

/-- Heap for the C2 witness: a single base predicate whose closure returns
true on its first invocation and false on every later one. -/
def c2h : Heap where
  defs := fun _ => .base 0
  baseFun := fun _ k => k == 0

/-- The empty initial world. -/
def emptyWorld : World where
  caches := fun _ => []
  nextCache := 0
  calls := fun _ => 0
  log := []

/-- World after the first evaluation of predicate 0 in cache 0. -/
def c2w1 : World := addToCache (bumpCall emptyWorld 0) 0 0 true

theorem eval_memoizes_witness :
    Eval c2h 1 0 0 emptyWorld = some (true, c2w1) ∧ Eval c2h 7 0 0 c2w1 = some (true, c2w1) := by
  have h1 : Eval c2h 1 0 0 emptyWorld = some (true, c2w1) := by
    simp [Eval, evalDef, c2h, emptyWorld, c2w1, isInCache, lookupA, addToCache, bumpCall, insertA]
  exact ⟨h1, (eval_memoizes c2h 1 0 0 emptyWorld c2w1 true h1).2 6⟩

/-! Section: C3 — boolean composition short-circuits left-to-right -/

/-- Claim C3. `and` evaluates its children in order and stops at the first
false child: if the children `xs` all evaluate true (reaching world `w1`)
and the next child `y` evaluates false (reaching world `w2`), then the
whole `and` child list `xs ++ y :: zs` evaluates to false with final
world exactly `w2` — the remaining children `zs` are never invoked and
leave no trace in any cache.  Dually, `or` stops at the first true child.
An `and` over `xs` alone returns true only when every child evaluated
true (that is what `evalAnd … = some (true, _)` unfolds to), and an `or`
returns false only when every child evaluated false. -/
theorem and_or_short_circuit (h : Heap) :
    (∀ (n ccid : Nat) (xs : List Nat) (y : Nat) (zs : List Nat) (w w1 w2 : World),
      evalAnd h n ccid xs w = some (true, w1) →
      Eval h n ccid y w1 = some (false, w2) →
      evalAnd h n ccid (xs ++ y :: zs) w = some (false, w2))
    ∧
    (∀ (n ccid : Nat) (xs : List Nat) (y : Nat) (zs : List Nat) (w w1 w2 : World),
      evalOr h n ccid xs w = some (false, w1) →
      Eval h n ccid y w1 = some (true, w2) →
      evalOr h n ccid (xs ++ y :: zs) w = some (true, w2)) := by
  constructor
  · intro n ccid xs
    induction xs with
    | nil =>
      intro y zs w w1 w2 hxs hy
      obtain rfl : w = w1 := by simpa [evalAnd] using hxs
      simp [evalAnd, hy]
    | cons x xs ih =>
      intro y zs w w1 w2 hxs hy
      cases hx : Eval h n ccid x w with
      | none => simp [evalAnd, hx] at hxs
      | some r =>
        obtain ⟨b, wx⟩ := r
        cases b with
        | false => simp [evalAnd, hx] at hxs
        | true =>
          simp only [evalAnd, hx] at hxs
          have hrest := ih y zs wx w1 w2 hxs hy
          simpa [evalAnd, hx] using hrest
  · intro n ccid xs
    induction xs with
    | nil =>
      intro y zs w w1 w2 hxs hy
      obtain rfl : w = w1 := by simpa [evalOr] using hxs
      simp [evalOr, hy]
    | cons x xs ih =>
      intro y zs w w1 w2 hxs hy
      cases hx : Eval h n ccid x w with
      | none => simp [evalOr, hx] at hxs
      | some r =>
        obtain ⟨b, wx⟩ := r
        cases b with
        | true => simp [evalOr, hx] at hxs
        | false =>
          simp only [evalOr, hx] at hxs
          have hrest := ih y zs wx w1 w2 hxs hy
          simpa [evalOr, hx] using hrest

/-- Heap for the C3 witness: predicate `p` is base closure `p`; closure 0
constantly returns true, every other closure constantly returns false. -/
def c3h : Heap where
  defs := fun p => .base p
  baseFun := fun idx _ => idx == 0

/-- World after evaluating predicate 0 (true) in cache 0. -/
def c3w1 : World := addToCache (bumpCall emptyWorld 0) 0 0 true

/-- World after additionally evaluating predicate 1 (false) in cache 0. -/
def c3w2 : World := addToCache (bumpCall c3w1 1) 0 1 false

/-- World after evaluating predicate 1 (false) in cache 0 from scratch. -/
def c3v1 : World := addToCache (bumpCall emptyWorld 1) 0 1 false

/-- World after additionally evaluating predicate 0 (true) in cache 0. -/
def c3v2 : World := addToCache (bumpCall c3v1 0) 0 0 true

theorem and_or_short_circuit_witness :
    evalAnd c3h 5 0 [0] emptyWorld = some (true, c3w1) ∧
    Eval c3h 5 0 1 c3w1 = some (false, c3w2) ∧
    evalAnd c3h 5 0 [0, 1, 2] emptyWorld = some (false, c3w2) ∧
    lookupA (c3w2.caches 0) 2 = none ∧
    evalOr c3h 5 0 [1] emptyWorld = some (false, c3v1) ∧
    Eval c3h 5 0 0 c3v1 = some (true, c3v2) ∧
    evalOr c3h 5 0 [1, 0, 2] emptyWorld = some (true, c3v2) ∧
    lookupA (c3v2.caches 0) 2 = none := by
  have ha1 : evalAnd c3h 5 0 [0] emptyWorld = some (true, c3w1) := by
    simp [evalAnd, Eval, evalDef, c3h, emptyWorld, c3w1, isInCache, lookupA, addToCache, bumpCall, insertA]
  have ha2 : Eval c3h 5 0 1 c3w1 = some (false, c3w2) := by
    simp [Eval, evalDef, c3h, emptyWorld, c3w1, c3w2, isInCache, lookupA, addToCache, bumpCall, insertA]
  have ho1 : evalOr c3h 5 0 [1] emptyWorld = some (false, c3v1) := by
    simp [evalOr, Eval, evalDef, c3h, emptyWorld, c3v1, isInCache, lookupA, addToCache, bumpCall, insertA]
  have ho2 : Eval c3h 5 0 0 c3v1 = some (true, c3v2) := by
    simp [Eval, evalDef, c3h, emptyWorld, c3v1, c3v2, isInCache, lookupA, addToCache, bumpCall, insertA]
  refine ⟨ha1, ha2, (and_or_short_circuit c3h).1 5 0 [0] 1 [2] emptyWorld c3w1 c3w2 ha1 ha2, ?_, ho1, ho2, (and_or_short_circuit c3h).2 5 0 [1] 0 [2] emptyWorld c3v1 c3v2 ho1 ho2, ?_⟩
  · simp [c3w2, c3w1, emptyWorld, addToCache, bumpCall, insertA, lookupA]
  · simp [c3v2, c3v1, emptyWorld, addToCache, bumpCall, insertA, lookupA]

/-! Section: C1 — which cache does a composite's function evaluate against? -/

/-- Heap for C1: predicate 0 is a base closure that returns true;
predicate 1 is the composite returned by cache 0's `And` method applied
to predicate 0 — its closure evaluates the child via `c.Eval` where `c`
is the *captured* cache 0. -/
def c1h : Heap where
  defs := fun p => if p = 0 then .base 0 else .and 0 [0]
  baseFun := fun _ _ => true

/-- Claim C1. Evaluating the composite predicate 1 against cache **1**
succeeds with value true, but its child — predicate 0 — ends up memoized
in the captured cache **0** and is absent from cache 1 afterwards, while
the composite itself is memoized in cache 1.  `Cache.Eval` invokes the
predicate's *zero-argument* function without passing the evaluating
cache, so the children of an `and`/`or`/`not` composite are evaluated and
memoized against the cache captured when the composite was constructed —
contrary to the claim (and to the repository's own pcache tests, which
build predicates from functions of type `func(*Cache) bool` and evaluate
children against the cache passed at evaluation time). -/
theorem composite_uses_captured_cache :
    ((Eval c1h 5 1 1 emptyWorld).map fun r =>
      (r.1, lookupA (r.2.caches 1) 0, lookupA (r.2.caches 0) 0, lookupA (r.2.caches 1) 1)) =
      some (true, none, some true, some true) := by
  simp [Eval, evalDef, evalAnd, c1h, emptyWorld, isInCache, lookupA, addToCache, bumpCall, insertA]

/-! Section: Frame lemmas for the three run-state mutators -/

theorem doRequeue_stop (c : ChainObj) (d : Int) : (doRequeue c d).stop = c.stop := by
  unfold doRequeue; split <;> rfl

theorem doRequeue_err (c : ChainObj) (d : Int) : (doRequeue c d).err = c.err := by
  unfold doRequeue; split <;> rfl

theorem doRequeue_Rules (c : ChainObj) (d : Int) : (doRequeue c d).Rules = c.Rules := by
  unfold doRequeue; split <;> rfl

theorem doRequeue_cache (c : ChainObj) (d : Int) : (doRequeue c d).cache = c.cache := by
  unfold doRequeue; split <;> rfl

/-! Section: C4 — the requeue delay is the minimum positive delay requested -/

/-- Heap for the chain-level examples: no predicate is ever consulted. -/
def chainH : Heap where
  defs := fun _ => .tt 0
  baseFun := fun _ _ => true

/-- Two "parallel" actions requesting 5s and then 2s (in nanoseconds). -/
def c4chain52 : ChainObj :=
  ⟨[(none, .par [.requeue 5000000000, .requeue 2000000000])], 0, false, none, 0⟩

/-- The same two actions in the opposite schedule. -/
def c4chain25 : ChainObj :=
  ⟨[(none, .par [.requeue 2000000000, .requeue 5000000000])], 0, false, none, 0⟩

/-- Claim C4. `doRequeue` keeps the minimum positive delay requested so
far: a non-positive delay is a no-op; a positive delay replaces an unset
(zero) interval; with both positive the result is the minimum of the two;
once set, the interval stays positive and never increases.  A run whose
rule launches two parallel actions requesting 5s and 2s reports a
requeue-after of exactly 2s under either schedule of the two requests. -/
theorem requeue_keeps_minimum (c : ChainObj) (d : Int) :
    (d ≤ 0 → doRequeue c d = c) ∧
    (0 < d → c.interval = 0 → (doRequeue c d).interval = d) ∧
    (0 < d → 0 < c.interval → (doRequeue c d).interval = min c.interval d) ∧
    (0 < c.interval → 0 < (doRequeue c d).interval ∧ (doRequeue c d).interval ≤ c.interval) ∧
    ((Run chainH 20 c4chain52 none emptyWorld).map Prod.fst = some (⟨true, 2000000000⟩, none)) ∧
    ((Run chainH 20 c4chain25 none emptyWorld).map Prod.fst = some (⟨true, 2000000000⟩, none)) := by
  refine ⟨?_, ?_, ?_, ?_, ?_, ?_⟩
  · intro hd
    rw [doRequeue, if_neg]
    rintro ⟨h1, -⟩
    omega
  · intro hd h0
    rw [doRequeue, if_pos ⟨hd, Or.inl h0⟩]
  · intro hd h0
    by_cases hlt : d < c.interval
    · rw [doRequeue, if_pos ⟨hd, Or.inr hlt⟩]
      exact (min_eq_right hlt.le).symm
    · rw [doRequeue, if_neg (by rintro ⟨-, h2 | h3⟩ <;> omega)]
      exact (min_eq_left (by omega)).symm
  · intro h0
    unfold doRequeue
    split
    · next h => obtain ⟨h1, h2 | h3⟩ := h <;> exact ⟨h1, by simpa using by omega⟩
    · exact ⟨h0, le_refl _⟩
  · simp +decide [Run, runRules, runStep, runAct, runActs, doRequeue, c4chain52, chainH, emptyWorld]
  · simp +decide [Run, runRules, runStep, runAct, runActs, doRequeue, c4chain25, chainH, emptyWorld]

/-- A chain object with interval already set to 3. -/
def c4c : ChainObj := ⟨[], 0, false, none, 3⟩

theorem requeue_keeps_minimum_witness :
    (0:Int) < 2 ∧ (0:Int) < 3 ∧ (doRequeue c4c 2).interval = min 3 2 :=
  ⟨by decide, by decide, (requeue_keeps_minimum c4c 2).2.2.1 (by decide) (by decide)⟩

/-! Section: C5 — the loop halts right after an action that stops or errors -/

/-- Heap for C5: predicate 0 is a base closure that returns true. -/
def c5h : Heap where
  defs := fun _ => .base 0
  baseFun := fun _ _ => true

/-- Three rules: R1 logs 1, R2 records error 7, R3 (whose predicate 0
would evaluate true) would log 99. -/
def c5chain : ChainObj :=
  ⟨[(none, .act 1), (none, .errA 7), (some 0, .act 99)], 0, false, none, 0⟩

/-- Claim C5. After every executed action the run loop checks the run
state: if the action left the stop flag set or an error recorded, the
loop halts immediately, returning `Requeue: true`, the current interval
(possibly zero) and the recorded error (none if only stop was set) — the
remaining rules do not influence the outcome at all.  Concretely, in the
three-rule chain `[R1, R2, R3]` where R2 records error 7, the run
returns error 7 with a log containing only R1's entry: R3's action never
executes even though R3's predicate evaluates true. -/
theorem halt_after_erroring_action (h : Heap) :
    (∀ (n : Nat) (a : ActionE) (rest : List RuleE) (c c1 : ChainObj) (w w1 : World),
      runAct h n a c w = some (c1, w1) →
      (c1.stop = true ∨ c1.err.isSome = true) →
      runStep h (n + 1) a rest c w = some ((⟨true, c1.interval⟩, c1.err), c1, w1)) ∧
    (((Run c5h 20 c5chain none emptyWorld).map fun r => (r.1, r.2.2.log)) =
      some ((⟨true, 0⟩, some 7), [1])) ∧
    ((Eval c5h 5 0 0 emptyWorld).map Prod.fst = some true) := by
  refine ⟨?_, ?_, ?_⟩
  · intro n a rest c c1 w w1 hact hhalt
    rcases hhalt with hs | hs <;> simp [runStep, hact, hs]
  · simp [Run, runRules, runStep, runAct, doError, c5chain, c5h, emptyWorld]
  · simp [Eval, evalDef, c5h, emptyWorld, isInCache, lookupA]

/-- A bare chain object in its reset state. -/
def c5c : ChainObj := ⟨[], 0, false, none, 0⟩

/-- The same chain object after `doError 7`. -/
def c5c1 : ChainObj := ⟨[], 0, false, some 7, 0⟩

theorem halt_after_erroring_action_witness :
    runAct c5h 1 (.errA 7) c5c emptyWorld = some (c5c1, emptyWorld) ∧
    c5c1.err.isSome = true ∧
    runStep c5h 2 (.errA 7) [(none, .act 99)] c5c emptyWorld =
      some ((⟨true, 0⟩, some 7), c5c1, emptyWorld) := by
  have hact : runAct c5h 1 (.errA 7) c5c emptyWorld = some (c5c1, emptyWorld) := by
    simp [runAct, doError, c5c, c5c1]
  exact ⟨hact, rfl,
    (halt_after_erroring_action c5h).1 1 (.errA 7) [(none, .act 99)] c5c c5c1 emptyWorld
      emptyWorld hact (Or.inr rfl)⟩

/-! Section: C6 — a subchain's error and requeue-after fold into the parent -/

/-- The child chain's rule list for the C6 example: one rule requesting
a 10s requeue (in nanoseconds). -/
def c6rules : List RuleE := [(none, .requeue 10000000000)]

/-- Parent chain whose single rule delegates to the child chain. -/
def c6parent : ChainObj := ⟨[(none, .sub none c6rules)], 0, false, none, 0⟩

/-- Claim C6. `Subchain` runs the nested chain to completion (with its own
rule list and its own freshly allocated cache, via `Run`) and folds the
child's outcome into the parent: a child error is recorded on the parent
(replacing the parent's), a positive child requeue-after is min-folded
into the parent's interval, and the child's stop flag never touches the
parent (nor the parent's rules or cache).  For a parent whose single rule
delegates to a child whose single rule requests a 10s requeue and records
no error, the parent's run reports requeue-after 10s and no error. -/
theorem subchain_folds_outcome (h : Heap) :
    (∀ (n : Nat) (le : Option Nat) (rules : List RuleE) (c : ChainObj) (w : World)
       (res : CtrlResult) (cerr : Option Nat) (csub : ChainObj) (w1 : World),
      Run h n ⟨rules, 0, false, none, 0⟩ le w = some ((res, cerr), csub, w1) →
      ∃ c2, runAct h (n + 1) (.sub le rules) c w = some (c2, w1) ∧
        c2.stop = c.stop ∧
        c2.Rules = c.Rules ∧
        c2.cache = c.cache ∧
        c2.err = (match cerr with | some e => some e | none => c.err) ∧
        c2.interval = (if 0 < res.RequeueAfter ∧ (c.interval = 0 ∨ res.RequeueAfter < c.interval)
          then res.RequeueAfter else c.interval)) ∧
    ((Run chainH 20 c6parent none emptyWorld).map Prod.fst = some (⟨true, 10000000000⟩, none)) := by
  constructor
  · intro n le rules c w res cerr csub w1 hrun
    have hact : runAct h (n + 1) (.sub le rules) c w =
        some ((if res.RequeueAfter > 0 then
                doRequeue (match cerr with | some e => doError c e | none => c) res.RequeueAfter
              else (match cerr with | some e => doError c e | none => c)), w1) := by
      simp only [runAct, hrun]
      cases cerr <;> rfl
    refine ⟨_, hact, ?_, ?_, ?_, ?_, ?_⟩
    · cases cerr <;> split <;> simp [doRequeue_stop, doError]
    · cases cerr <;> split <;> simp [doRequeue_Rules, doError]
    · cases cerr <;> split <;> simp [doRequeue_cache, doError]
    · cases cerr <;> split <;> simp [doRequeue_err, doError]
    · cases cerr <;> simp only [doError] <;> unfold doRequeue <;> split_ifs <;>
        first
        | rfl
        | omega
  · simp +decide [Run, runRules, runStep, runAct, doRequeue, c6parent, c6rules, chainH, emptyWorld]

/-- A parent chain object with the stop flag set, to make visible that a
subchain invocation leaves the parent's stop flag alone. -/
def c6pc : ChainObj := ⟨[], 5, true, none, 0⟩

/-- Child chain object as `Subchain` constructs it before running. -/
def c6childObj : ChainObj := ⟨c6rules, 0, false, none, 0⟩

/-- Child chain object after its run. -/
def c6csub : ChainObj := ⟨c6rules, 0, false, none, 10000000000⟩

/-- World after the child's run (one cache allocated). -/
def c6w1 : World := { emptyWorld with nextCache := 1 }

theorem subchain_folds_outcome_witness :
    Run chainH 10 c6childObj none emptyWorld = some ((⟨true, 10000000000⟩, none), c6csub, c6w1) ∧
    (∃ c2, runAct chainH 11 (.sub none c6rules) c6pc emptyWorld = some (c2, c6w1) ∧
      c2.stop = c6pc.stop ∧
      c2.Rules = c6pc.Rules ∧
      c2.cache = c6pc.cache ∧
      c2.err = (match (none : Option Nat) with | some e => some e | none => c6pc.err) ∧
      c2.interval = (if 0 < (⟨true, 10000000000⟩ : CtrlResult).RequeueAfter ∧
          (c6pc.interval = 0 ∨ (⟨true, 10000000000⟩ : CtrlResult).RequeueAfter < c6pc.interval)
        then (⟨true, 10000000000⟩ : CtrlResult).RequeueAfter else c6pc.interval)) := by
  have hrun : Run chainH 10 c6childObj none emptyWorld =
      some ((⟨true, 10000000000⟩, none), c6csub, c6w1) := by
    simp +decide [Run, runRules, runStep, runAct, doRequeue, c6childObj, c6rules, c6csub, c6w1,
      chainH, emptyWorld]
  exact ⟨hrun, (subchain_folds_outcome chainH).1 10 none c6rules c6pc emptyWorld
    ⟨true, 10000000000⟩ none c6csub c6w1 hrun⟩

/-! Section: C7 — what the returned result's requeue flag reports -/

/-- A one-rule chain whose action merely logs. -/
def c7chain : ChainObj := ⟨[(none, .act 1)], 0, false, none, 0⟩

/-- Claim C7, counterexample. The claim says every return path of `Run`
reports "should requeue" true, including a failure before the rule loop.
On the resource-load failure path the code returns the zero
`ctrl.Result{}`, whose `Requeue` field is false: running with a load
error 5 yields `Requeue = false` together with the error. -/
theorem run_requeue_false_on_load_failure :
    ((Run chainH 5 c7chain (some 5) emptyWorld).map fun r => (r.1.1.Requeue, r.1.2)) =
      some (false, some 5) := by
  simp [Run, c7chain, chainH, emptyWorld]

/-- Both return points of the rule loop carry `Requeue: true`. -/
theorem runRules_requeue_true (h : Heap) :
    ∀ n : Nat,
      (∀ rules c w out c' w', runRules h n rules c w = some (out, c', w') →
        (out : CtrlResult × Option Nat).1.Requeue = true) ∧
      (∀ a rest c w out c' w', runStep h n a rest c w = some (out, c', w') →
        (out : CtrlResult × Option Nat).1.Requeue = true) := by
  intro n
  induction n with
  | zero =>
    refine ⟨fun rules c w out c' w' hr => ?_, fun a rest c w out c' w' hs => ?_⟩
    · simp [runRules] at hr
    · simp [runStep] at hs
  | succ m ih =>
    constructor
    · intro rules c w out c' w' hr
      match rules with
      | [] =>
        simp only [runRules] at hr
        obtain ⟨rfl, -, -⟩ :
            (⟨true, c.interval⟩, (none : Option Nat)) = out ∧ c = c' ∧ w = w' := by
          simpa using hr
        rfl
      | (wh, a) :: rest =>
        cases wh with
        | none =>
          simp only [runRules] at hr
          exact ih.2 a rest c w out c' w' hr
        | some p =>
          cases hev : Eval h m c.cache p w with
          | none => simp [runRules, hev] at hr
          | some r =>
            obtain ⟨b, w1⟩ := r
            cases b with
            | true =>
              simp only [runRules, hev] at hr
              exact ih.2 a rest c w1 out c' w' hr
            | false =>
              simp only [runRules, hev] at hr
              exact ih.1 rest c w1 out c' w' hr
    · intro a rest c w out c' w' hs
      cases hact : runAct h m a c w with
      | none => simp [runStep, hact] at hs
      | some r =>
        obtain ⟨c1, w1⟩ := r
        by_cases hhalt : (c1.stop || c1.err.isSome) = true
        · simp only [runStep, hact, hhalt, if_pos] at hs
          obtain ⟨rfl, -, -⟩ :
              (⟨true, c1.interval⟩, c1.err) = out ∧ c1 = c' ∧ w1 = w' := by
            simpa using hs
          rfl
        · simp only [runStep, hact] at hs
          rw [if_neg hhalt] at hs
          exact ih.1 rest c1 w1 out c' w' hs

/-- Claim C7, amended. When resource loading succeeds, every return path
of `Run` — early halt on stop or error, or completion of all rules —
reports `Requeue: true`, with the requeue-after duration being the
accumulated minimum requested delay (zero meaning "as soon as
possible"); but when resource loading fails, `Run` returns the zero
result — `Requeue: false`, requeue-after 0 — together with the load
error. -/
theorem run_requeue_reporting (h : Heap) :
    (∀ (n : Nat) (c : ChainObj) (w : World) (out : CtrlResult × Option Nat)
       (c' : ChainObj) (w' : World),
      Run h n c none w = some (out, c', w') → out.1.Requeue = true) ∧
    (∀ (n : Nat) (c : ChainObj) (w : World) (e : Nat) (out : CtrlResult × Option Nat)
       (c' : ChainObj) (w' : World),
      Run h n c (some e) w = some (out, c', w') →
      out.1.Requeue = false ∧ out.1.RequeueAfter = 0 ∧ out.2 = some e) := by
  constructor
  · intro n c w out c' w' hr
    cases n with
    | zero => simp [Run] at hr
    | succ m =>
      simp only [Run] at hr
      exact (runRules_requeue_true h m).1 _ _ _ out c' w' hr
  · intro n c w e out c' w' hr
    cases n with
    | zero => simp [Run] at hr
    | succ m =>
      simp only [Run] at hr
      obtain ⟨rfl, -⟩ :
          ((⟨⟨false, 0⟩, some e⟩ : CtrlResult × Option Nat)) = out ∧ _ := by
        simpa using hr
      exact ⟨rfl, rfl, rfl⟩

/-- The chain object after `Run`'s reset phase (also the final chain
object of both witness runs, whose actions never touch the run state). -/
def c7cReset : ChainObj := ⟨[(none, .act 1)], 0, false, none, 0⟩

/-- Final world of the successful witness run: one cache allocated, one
action logged. -/
def c7wLoaded : World := { emptyWorld with nextCache := 1, log := [1] }

/-- Final world of the failed-load witness run: one cache allocated,
nothing executed. -/
def c7wFailed : World := { emptyWorld with nextCache := 1 }

theorem run_requeue_reporting_witness :
    Run chainH 5 c7chain none emptyWorld = some ((⟨true, 0⟩, none), c7cReset, c7wLoaded) ∧
    ((⟨true, 0⟩ : CtrlResult), (none : Option Nat)).1.Requeue = true ∧
    Run chainH 5 c7chain (some 3) emptyWorld = some ((⟨false, 0⟩, some 3), c7cReset, c7wFailed) ∧
    (((⟨false, 0⟩ : CtrlResult), (some 3 : Option Nat)).1.Requeue = false ∧
      ((⟨false, 0⟩ : CtrlResult), (some 3 : Option Nat)).1.RequeueAfter = 0 ∧
      ((⟨false, 0⟩ : CtrlResult), (some 3 : Option Nat)).2 = some 3) := by
  have h1 : Run chainH 5 c7chain none emptyWorld =
      some ((⟨true, 0⟩, none), c7cReset, c7wLoaded) := by
    simp [Run, runRules, runStep, runAct, c7chain, c7cReset, c7wLoaded, chainH, emptyWorld]
  have h2 : Run chainH 5 c7chain (some 3) emptyWorld =
      some ((⟨false, 0⟩, some 3), c7cReset, c7wFailed) := by
    simp [Run, c7chain, c7cReset, c7wFailed, chainH, emptyWorld]
  exact ⟨h1, (run_requeue_reporting chainH).1 5 c7chain emptyWorld _ c7cReset c7wLoaded h1,
    h2, (run_requeue_reporting chainH).2 5 c7chain emptyWorld 3 _ c7cReset c7wFailed h2⟩

/-! Section: C8 — recorded errors overwrite and are returned on halt -/

/-- A chain whose single action records error 1 and then error 2. -/
def c8chain : ChainObj := ⟨[(none, .seq [.errA 1, .errA 2])], 0, false, none, 0⟩

/-- Claim C8. `doError` sets the run's error to the given value, replacing
any previously recorded one; and whenever an executed action leaves an
error recorded, the loop halts at its post-action check and returns
exactly that error — the last one recorded before halting.  Concretely, a
rule whose action records error 1 and then error 2 produces a run that
returns error 2. -/
theorem record_error_overwrites (h : Heap) :
    (∀ (c : ChainObj) (e : Nat), (doError c e).err = some e) ∧
    (∀ (n : Nat) (a : ActionE) (rest : List RuleE) (c c1 : ChainObj) (w w1 : World) (e : Nat),
      runAct h n a c w = some (c1, w1) →
      c1.err = some e →
      runStep h (n + 1) a rest c w = some ((⟨true, c1.interval⟩, some e), c1, w1)) ∧
    (((Run chainH 20 c8chain none emptyWorld).map Prod.fst) = some (⟨true, 0⟩, some 2)) := by
  refine ⟨fun c e => rfl, ?_, ?_⟩
  · intro n a rest c c1 w w1 e hact herr
    simp [runStep, hact, herr]
  · simp [Run, runRules, runStep, runAct, runActs, doError, c8chain, chainH, emptyWorld]

/-- Chain object after recording error 1 and then error 2. -/
def c8c1 : ChainObj := ⟨[], 0, false, some 2, 0⟩

theorem record_error_overwrites_witness :
    (doError (doError c5c 1) 2).err = some 2 ∧
    runAct chainH 5 (.seq [.errA 1, .errA 2]) c5c emptyWorld = some (c8c1, emptyWorld) ∧
    c8c1.err = some 2 ∧
    runStep chainH 6 (.seq [.errA 1, .errA 2]) [] c5c emptyWorld =
      some ((⟨true, 0⟩, some 2), c8c1, emptyWorld) := by
  have hact : runAct chainH 5 (.seq [.errA 1, .errA 2]) c5c emptyWorld =
      some (c8c1, emptyWorld) := by
    simp [runAct, runActs, doError, c5c, c8c1]
  exact ⟨(record_error_overwrites chainH).1 (doError c5c 1) 2, hact, rfl,
    (record_error_overwrites chainH).2.1 5 (.seq [.errA 1, .errA 2]) [] c5c c8c1
      emptyWorld emptyWorld 2 hact rfl⟩

/-! Section: C10 — each mutator touches only its own run-state field -/

/-- Claim C10. Each run-state mutator modifies only its own field of the
chain: `doStop` sets `stop` and leaves `err` and `interval` unchanged;
`doError` assigns `err` and leaves `stop` and `interval` unchanged;
`doRequeue` can change only `interval`, leaving `stop` and `err`
unchanged; and none of the three touches the chain's rule list or its
predicate-cache handle (nor the world: the mutators do not even take the
cache table as an argument). -/
theorem mutators_frame (c : ChainObj) (d : Int) (e : Nat) :
    ((doStop c).stop = true ∧ (doStop c).err = c.err ∧ (doStop c).interval = c.interval ∧
      (doStop c).Rules = c.Rules ∧ (doStop c).cache = c.cache) ∧
    ((doError c e).err = some e ∧ (doError c e).stop = c.stop ∧
      (doError c e).interval = c.interval ∧ (doError c e).Rules = c.Rules ∧
      (doError c e).cache = c.cache) ∧
    ((doRequeue c d).stop = c.stop ∧ (doRequeue c d).err = c.err ∧
      (doRequeue c d).Rules = c.Rules ∧ (doRequeue c d).cache = c.cache) :=
  ⟨⟨rfl, rfl, rfl, rfl, rfl⟩, ⟨rfl, rfl, rfl, rfl, rfl⟩,
    doRequeue_stop c d, doRequeue_err c d, doRequeue_Rules c d, doRequeue_cache c d⟩

/-! Section: C9 — running the same chain twice gives identical results

The proof factors through a world-free reference runner `RunP` with the
same control structure as `Run` but no cache, no invocation counters and
no log: it is meaningful for chains whose rule predicates are base
predicates — the only kind constructible through the repository's public
API, where `operchain.Predicate` wraps `pcache.NewPredicate` and the
internal composite constructors are not exported — whose closures do not
change behaviour between invocations.  Under those hypotheses `Run`
agrees with `RunP`, whose output depends only on the rule list and the
load outcome; since a run leaves the rule list unchanged, two successive
runs return the same result and error. -/

/-- The run-state triple threaded by the reference runner. -/
structure RSt where
  stop : Bool
  err : Option Nat
  interval : Int
deriving DecidableEq, Repr

/-- Projection of a chain object to its run state. -/
def rst (c : ChainObj) : RSt := ⟨c.stop, c.err, c.interval⟩

/-- `doRequeue` on the run-state triple. -/
def doRequeueP (s : RSt) (interval : Int) : RSt :=
  if interval > 0 ∧ (s.interval = 0 ∨ interval < s.interval) then
    { s with interval := interval }
  else s

/-- `doStop` on the run-state triple. -/
def doStopP (s : RSt) : RSt := { s with stop := true }

/-- `doError` on the run-state triple. -/
def doErrorP (s : RSt) (e : Nat) : RSt := { s with err := some e }

/-- The (invocation-independent) value of a base predicate. -/
def pval (h : Heap) (p : Nat) : Bool :=
  match h.defs p with
  | .base idx => h.baseFun idx 0
  | _ => false

mutual

/-- World-free counterpart of `Run`. -/
def RunP (h : Heap) : Nat → List RuleE → Option Nat → Option (CtrlResult × Option Nat)
  | 0, _, _ => none
  | n + 1, rules, loadErr =>
    match loadErr with
    | some e => some (⟨false, 0⟩, some e)
    | none => runRulesP h n rules ⟨false, none, 0⟩
termination_by n rules le => n

/-- World-free counterpart of `runRules`. -/
def runRulesP (h : Heap) : Nat → List RuleE → RSt → Option (CtrlResult × Option Nat)
  | 0, _, _ => none
  | _ + 1, [], s => some (⟨true, s.interval⟩, none)
  | n + 1, (wh, a) :: rest, s =>
    match wh with
    | none => runStepP h n a rest s
    | some p => if pval h p then runStepP h n a rest s else runRulesP h n rest s
termination_by n rules s => n

/-- World-free counterpart of `runStep`. -/
def runStepP (h : Heap) : Nat → ActionE → List RuleE → RSt → Option (CtrlResult × Option Nat)
  | 0, _, _, _ => none
  | n + 1, a, rest, s =>
    match runActP h n a s with
    | none => none
    | some s1 =>
      if s1.stop || s1.err.isSome then some (⟨true, s1.interval⟩, s1.err)
      else runRulesP h n rest s1
termination_by n a rest s => n

/-- World-free counterpart of `runAct`. -/
def runActP (h : Heap) : Nat → ActionE → RSt → Option RSt
  | 0, _, _ => none
  | _ + 1, .act _, s => some s
  | _ + 1, .requeue d, s => some (doRequeueP s d)
  | _ + 1, .stopA, s => some (doStopP s)
  | _ + 1, .errA e, s => some (doErrorP s e)
  | n + 1, .seq as, s => runActsP h n as s
  | n + 1, .par as, s => runActsP h n as s
  | n + 1, .sub le rules, s =>
    match RunP h n rules le with
    | none => none
    | some (res, cerr) =>
      let s1 := match cerr with
        | some e => doErrorP s e
        | none => s
      some (if res.RequeueAfter > 0 then doRequeueP s1 res.RequeueAfter else s1)
termination_by n a s => n

/-- World-free counterpart of `runActs`. -/
def runActsP (h : Heap) : Nat → List ActionE → RSt → Option RSt
  | 0, _, _ => none
  | _ + 1, [], s => some s
  | n + 1, a :: as, s =>
    match runActP h n a s with
    | none => none
    | some s1 => runActsP h n as s1
termination_by n as s => n

end

/-- Every predicate reachable from an action — through arbitrarily nested
subchains — is a base predicate. -/
inductive BaseOnlyA (h : Heap) : ActionE → Prop where
  | act (i : Nat) : BaseOnlyA h (.act i)
  | requeue (d : Int) : BaseOnlyA h (.requeue d)
  | stopA : BaseOnlyA h .stopA
  | errA (e : Nat) : BaseOnlyA h (.errA e)
  | seq (as : List ActionE) : (∀ a ∈ as, BaseOnlyA h a) → BaseOnlyA h (.seq as)
  | par (as : List ActionE) : (∀ a ∈ as, BaseOnlyA h a) → BaseOnlyA h (.par as)
  | sub (le : Option Nat) (rules : List RuleE) :
      (∀ r ∈ rules, ∀ p, r.1 = some p → ∃ idx, h.defs p = .base idx) →
      (∀ r ∈ rules, BaseOnlyA h r.2) →
      BaseOnlyA h (.sub le rules)

/-- Every `When` predicate of the rule list is a base predicate, and so
is every predicate reachable from the rules' actions. -/
def BaseOnlyRules (h : Heap) (rules : List RuleE) : Prop :=
  (∀ r ∈ rules, ∀ p, r.1 = some p → ∃ idx, h.defs p = .base idx) ∧
  (∀ r ∈ rules, BaseOnlyA h r.2)

/-- Every base closure's behaviour is independent of how often it has
been invoked ("behaviour unchanged between runs"). -/
def ConstFun (h : Heap) : Prop := ∀ idx k, h.baseFun idx k = h.baseFun idx 0

/-- Every value cached anywhere for a base predicate is that predicate's
constant value.  Holds for the empty world and is preserved by runs. -/
def CacheOK (h : Heap) (w : World) : Prop :=
  ∀ cid p v idx, lookupA (w.caches cid) p = some v → h.defs p = PredDef.base idx →
    v = h.baseFun idx 0

theorem rst_doStop (c : ChainObj) : rst (doStop c) = doStopP (rst c) := rfl

theorem rst_doError (c : ChainObj) (e : Nat) : rst (doError c e) = doErrorP (rst c) e := rfl

theorem rst_doRequeue (c : ChainObj) (d : Int) : rst (doRequeue c d) = doRequeueP (rst c) d := by
  simp only [doRequeue, doRequeueP, rst]
  split_ifs <;> rfl

theorem pval_base (h : Heap) {p idx : Nat} (hdef : h.defs p = .base idx) :
    pval h p = h.baseFun idx 0 := by
  simp [pval, hdef]

/-- Under `ConstFun` and `CacheOK`, evaluating a base predicate at any
positive fuel, against any cache, in any conforming world, yields the
predicate's constant value, and the world stays conforming. -/
theorem Eval_base (h : Heap) (hconst : ConstFun h) {w : World} (hok : CacheOK h w)
    {p idx : Nat} (hdef : h.defs p = .base idx) (n cid : Nat) :
    ∃ w', Eval h (n + 1) cid p w = some (h.baseFun idx 0, w') ∧ CacheOK h w' := by
  cases hc : isInCache w cid p with
  | some v =>
    obtain rfl : v = h.baseFun idx 0 := hok cid p v idx hc hdef
    exact ⟨w, by simp [Eval, hc], hok⟩
  | none =>
    refine ⟨addToCache (bumpCall w idx) cid p (h.baseFun idx 0), ?_, ?_⟩
    · simp [Eval, hc, hdef, evalDef, hconst idx (w.calls idx)]
    · intro cid' p' v' idx' hl hdef'
      simp only [addToCache, bumpCall] at hl
      by_cases hcid : cid' = cid
      · subst hcid
        rw [if_pos rfl] at hl
        by_cases hp : p = p'
        · subst hp
          rw [lookupA_insertA_self] at hl
          have hv : h.baseFun idx 0 = v' := Option.some.inj hl
          rw [hdef] at hdef'
          injection hdef' with hidx
          rw [← hidx]
          exact hv.symm
        · rw [lookupA_insertA_ne _ _ hp] at hl
          exact hok cid' p' v' idx' hl hdef'
      · rw [if_neg hcid] at hl
        exact hok cid' p' v' idx' hl hdef'

/-- Under `ConstFun`, `BaseOnly…` and `CacheOK`, every runner agrees
with its world-free counterpart (whose output does not depend on the
world, the chain's non-rule fields, or the cache identity), runs
preserve `CacheOK`, and leave the chain's rule list unchanged. -/
theorem runChain_agrees (h : Heap) (hconst : ConstFun h) :
    ∀ n : Nat,
      (∀ c le w, BaseOnlyRules h c.Rules → CacheOK h w →
        ((Run h n c le w).map Prod.fst = RunP h n c.Rules le ∧
          ∀ out c' w', Run h n c le w = some (out, c', w') →
            CacheOK h w' ∧ c'.Rules = c.Rules)) ∧
      (∀ rules c w, BaseOnlyRules h rules → CacheOK h w →
        ((runRules h n rules c w).map Prod.fst = runRulesP h n rules (rst c) ∧
          ∀ out c' w', runRules h n rules c w = some (out, c', w') →
            CacheOK h w' ∧ c'.Rules = c.Rules)) ∧
      (∀ a rest c w, BaseOnlyA h a → BaseOnlyRules h rest → CacheOK h w →
        ((runStep h n a rest c w).map Prod.fst = runStepP h n a rest (rst c) ∧
          ∀ out c' w', runStep h n a rest c w = some (out, c', w') →
            CacheOK h w' ∧ c'.Rules = c.Rules)) ∧
      (∀ a c w, BaseOnlyA h a → CacheOK h w →
        ((runAct h n a c w).map (fun r => rst r.1) = runActP h n a (rst c) ∧
          ∀ c1 w1, runAct h n a c w = some (c1, w1) →
            CacheOK h w1 ∧ c1.Rules = c.Rules)) ∧
      (∀ as c w, (∀ a ∈ as, BaseOnlyA h a) → CacheOK h w →
        ((runActs h n as c w).map (fun r => rst r.1) = runActsP h n as (rst c) ∧
          ∀ c1 w1, runActs h n as c w = some (c1, w1) →
            CacheOK h w1 ∧ c1.Rules = c.Rules)) := by
  intro n
  induction n with
  | zero =>
    refine ⟨?_, ?_, ?_, ?_, ?_⟩
    · intro c le w _ _
      refine ⟨by simp [Run, RunP], fun out c' w' hr => ?_⟩
      simp [Run] at hr
    · intro rules c w _ _
      refine ⟨by simp [runRules, runRulesP], fun out c' w' hr => ?_⟩
      simp [runRules] at hr
    · intro a rest c w _ _ _
      refine ⟨by simp [runStep, runStepP], fun out c' w' hr => ?_⟩
      simp [runStep] at hr
    · intro a c w _ _
      refine ⟨by simp [runAct, runActP], fun c1 w1 hr => ?_⟩
      simp [runAct] at hr
    · intro as c w _ _
      refine ⟨by simp [runActs, runActsP], fun c1 w1 hr => ?_⟩
      simp [runActs] at hr
  | succ n ih =>
    obtain ⟨ihRun, ihRules, ihStep, ihAct, ihActs⟩ := ih
    refine ⟨?_, ?_, ?_, ?_, ?_⟩
    -- Run
    · intro c le w hbase hok
      cases le with
      | some e =>
        refine ⟨by simp [Run, RunP], fun out c' w' hr => ?_⟩
        simp only [Run] at hr
        obtain ⟨-, rfl, rfl⟩ :
            ((⟨false, 0⟩, some e) : CtrlResult × Option Nat) = out ∧ ({ c with stop := false, err := none, interval := 0, cache := w.nextCache } : ChainObj) = c' ∧ ({ w with nextCache := w.nextCache + 1 } : World) = w' := by
          simpa using hr
        exact ⟨hok, rfl⟩
      | none =>
        obtain ⟨heq, hpres⟩ :=
          ihRules c.Rules
            { c with stop := false, err := none, interval := 0, cache := w.nextCache }
            { w with nextCache := w.nextCache + 1 } hbase hok
        refine ⟨?_, fun out c' w' hr => ?_⟩
        · simp only [Run, RunP]
          exact heq
        · simp only [Run] at hr
          exact hpres out c' w' hr
    -- runRules
    · intro rules c w hbase hok
      match rules with
      | [] =>
        refine ⟨by simp [runRules, runRulesP, rst], fun out c' w' hr => ?_⟩
        simp only [runRules] at hr
        obtain ⟨-, rfl, rfl⟩ :
            ((⟨true, c.interval⟩, none) : CtrlResult × Option Nat) = out ∧ c = c' ∧ w = w' := by
          simpa using hr
        exact ⟨hok, rfl⟩
      | (wh, a) :: rest =>
        have hbrest : BaseOnlyRules h rest :=
          ⟨fun r hr => hbase.1 r (List.mem_cons_of_mem _ hr),
            fun r hr => hbase.2 r (List.mem_cons_of_mem _ hr)⟩
        have hba : BaseOnlyA h a := hbase.2 (wh, a) (List.mem_cons_self _ _)
        cases wh with
        | none =>
          obtain ⟨heq, hpres⟩ := ihStep a rest c w hba hbrest hok
          refine ⟨?_, fun out c' w' hr => ?_⟩
          · simp only [runRules, runRulesP]
            exact heq
          · simp only [runRules] at hr
            exact hpres out c' w' hr
        | some p =>
          obtain ⟨idx, hdef⟩ := hbase.1 (some p, a) (List.mem_cons_self _ _) p rfl
          cases n with
          | zero =>
            refine ⟨?_, fun out c' w' hr => ?_⟩
            · have h0 : (runRules h 1 ((some p, a) :: rest) c w).map Prod.fst = none := by
                simp [runRules, Eval]
              rw [h0]
              cases hpv : pval h p <;> simp [runRulesP, runStepP, hpv]
            · simp [runRules, Eval] at hr
          | succ m =>
            obtain ⟨w', hev, hok'⟩ := Eval_base h hconst hok hdef m c.cache
            have hpv : pval h p = h.baseFun idx 0 := pval_base h hdef
            cases hb : h.baseFun idx 0 with
            | true =>
              rw [hb] at hev
              obtain ⟨heq, hpres⟩ := ihStep a rest c w' hba hbrest hok'
              refine ⟨?_, fun out c' w' hr => ?_⟩
              · simp only [runRules, runRulesP, hev, hpv, hb, if_pos]
                exact heq
              · simp only [runRules, hev] at hr
                exact hpres out c' w' hr
            | false =>
              rw [hb] at hev
              obtain ⟨heq, hpres⟩ := ihRules rest c w' hbrest hok'
              refine ⟨?_, fun out c' w' hr => ?_⟩
              · simp only [runRules, runRulesP, hev, hpv, hb]
                simp only [Bool.false_eq_true, if_false]
                exact heq
              · simp only [runRules, hev] at hr
                exact hpres out c' w' hr
    -- runStep
    · intro a rest c w hba hbrest hok
      obtain ⟨heqA, hpresA⟩ := ihAct a c w hba hok
      cases hact : runAct h n a c w with
      | none =>
        have hnone : runActP h n a (rst c) = none := by rw [← heqA, hact]; rfl
        refine ⟨by simp [runStep, runStepP, hact, hnone], fun out c' w' hr => ?_⟩
        simp [runStep, hact] at hr
      | some r =>
        obtain ⟨c1, w1⟩ := r
        have hsome : runActP h n a (rst c) = some (rst c1) := by rw [← heqA, hact]; rfl
        obtain ⟨hok1, hr1⟩ := hpresA c1 w1 hact
        by_cases hhalt : (c1.stop || c1.err.isSome) = true
        · have hhalt' : ((rst c1).stop || (rst c1).err.isSome) = true := hhalt
          refine ⟨?_, fun out c' w' hr => ?_⟩
          · simp only [runStep, runStepP, hact, hsome]
            rw [if_pos hhalt, if_pos hhalt']
            rfl
          · simp only [runStep, hact, if_pos hhalt] at hr
            obtain ⟨-, rfl, rfl⟩ :
                ((⟨true, c1.interval⟩, c1.err) : CtrlResult × Option Nat) = out ∧
                  c1 = c' ∧ w1 = w' := by
              simpa using hr
            exact ⟨hok1, hr1⟩
        · have hhalt' : ¬((rst c1).stop || (rst c1).err.isSome) = true := hhalt
          obtain ⟨heqR, hpresR⟩ := ihRules rest c1 w1 hbrest hok1
          refine ⟨?_, fun out c' w' hr => ?_⟩
          · simp only [runStep, runStepP, hact, hsome]
            rw [if_neg hhalt, if_neg hhalt']
            exact heqR
          · simp only [runStep, hact] at hr
            rw [if_neg hhalt] at hr
            obtain ⟨hokw, hrules⟩ := hpresR out c' w' hr
            exact ⟨hokw, hrules.trans hr1⟩
    -- runAct
    · intro a c w hba hok
      cases hba with
      | act i =>
        refine ⟨by simp [runAct, runActP], fun c1 w1 hr => ?_⟩
        simp only [runAct] at hr
        obtain ⟨rfl, rfl⟩ : c = c1 ∧ ({ w with log := w.log ++ [i] } : World) = w1 := by
          simpa using hr
        exact ⟨hok, rfl⟩
      | requeue d =>
        refine ⟨by simp [runAct, runActP, rst_doRequeue], fun c1 w1 hr => ?_⟩
        simp only [runAct] at hr
        obtain ⟨rfl, rfl⟩ : doRequeue c d = c1 ∧ w = w1 := by simpa using hr
        exact ⟨hok, doRequeue_Rules c d⟩
      | stopA =>
        refine ⟨by simp [runAct, runActP, rst_doStop], fun c1 w1 hr => ?_⟩
        simp only [runAct] at hr
        obtain ⟨rfl, rfl⟩ : doStop c = c1 ∧ w = w1 := by simpa using hr
        exact ⟨hok, rfl⟩
      | errA e =>
        refine ⟨by simp [runAct, runActP, rst_doError], fun c1 w1 hr => ?_⟩
        simp only [runAct] at hr
        obtain ⟨rfl, rfl⟩ : doError c e = c1 ∧ w = w1 := by simpa using hr
        exact ⟨hok, rfl⟩
      | seq as hall =>
        obtain ⟨heq, hpres⟩ := ihActs as c w hall hok
        refine ⟨?_, fun c1 w1 hr => ?_⟩
        · simp only [runAct, runActP]
          exact heq
        · simp only [runAct] at hr
          exact hpres c1 w1 hr
      | par as hall =>
        obtain ⟨heq, hpres⟩ := ihActs as c w hall hok
        refine ⟨?_, fun c1 w1 hr => ?_⟩
        · simp only [runAct, runActP]
          exact heq
        · simp only [runAct] at hr
          exact hpres c1 w1 hr
      | sub le rules hwhen hacts =>
        obtain ⟨heqC, hpresC⟩ := ihRun ⟨rules, 0, false, none, 0⟩ le w ⟨hwhen, hacts⟩ hok
        cases hrun : Run h n ⟨rules, 0, false, none, 0⟩ le w with
        | none =>
          have hnone : RunP h n rules le = none := by rw [← heqC, hrun]; rfl
          refine ⟨by simp [runAct, runActP, hrun, hnone], fun c1 w1 hr => ?_⟩
          simp [runAct, hrun] at hr
        | some r =>
          obtain ⟨⟨res, cerr⟩, csub, w1⟩ := r
          have hsomeP : RunP h n rules le = some (res, cerr) := by rw [← heqC, hrun]; rfl
          obtain ⟨hokw1, -⟩ := hpresC (res, cerr) csub w1 hrun
          refine ⟨?_, fun c1 w1' hr => ?_⟩
          · simp only [runAct, runActP, hrun, hsomeP]
            cases cerr <;>
              by_cases hra : res.RequeueAfter > 0 <;>
                simp [hra, rst_doRequeue, rst_doError]
          · simp only [runAct, hrun] at hr
            cases cerr with
            | none =>
              obtain ⟨rfl, rfl⟩ :
                  (if res.RequeueAfter > 0 then doRequeue c res.RequeueAfter else c) = c1 ∧
                    w1 = w1' := by
                simpa using hr
              refine ⟨hokw1, ?_⟩
              by_cases hra : res.RequeueAfter > 0 <;> simp [hra, doRequeue_Rules]
            | some e =>
              obtain ⟨rfl, rfl⟩ :
                  (if res.RequeueAfter > 0 then doRequeue (doError c e) res.RequeueAfter
                    else doError c e) = c1 ∧ w1 = w1' := by
                simpa using hr
              refine ⟨hokw1, ?_⟩
              by_cases hra : res.RequeueAfter > 0 <;> simp [hra, doRequeue_Rules, doError]
    -- runActs
    · intro as c w hall hok
      match as with
      | [] =>
        refine ⟨by simp [runActs, runActsP], fun c1 w1 hr => ?_⟩
        simp only [runActs] at hr
        obtain ⟨rfl, rfl⟩ : c = c1 ∧ w = w1 := by simpa using hr
        exact ⟨hok, rfl⟩
      | a :: as' =>
        have hba : BaseOnlyA h a := hall a (List.mem_cons_self _ _)
        have hall' : ∀ x ∈ as', BaseOnlyA h x := fun x hx => hall x (List.mem_cons_of_mem _ hx)
        obtain ⟨heqA, hpresA⟩ := ihAct a c w hba hok
        cases hact : runAct h n a c w with
        | none =>
          have hnone : runActP h n a (rst c) = none := by rw [← heqA, hact]; rfl
          refine ⟨by simp [runActs, runActsP, hact, hnone], fun c1 w1 hr => ?_⟩
          simp [runActs, hact] at hr
        | some r =>
          obtain ⟨c1, w1⟩ := r
          have hsome : runActP h n a (rst c) = some (rst c1) := by rw [← heqA, hact]; rfl
          obtain ⟨hok1, hrules1⟩ := hpresA c1 w1 hact
          obtain ⟨heqS, hpresS⟩ := ihActs as' c1 w1 hall' hok1
          refine ⟨?_, fun c2 w2 hr => ?_⟩
          · simp only [runActs, runActsP, hact, hsome]
            exact heqS
          · simp only [runActs, hact] at hr
            obtain ⟨hokw2, hrules2⟩ := hpresS c2 w2 hr
            exact ⟨hokw2, hrules2.trans hrules1⟩

/-- Claim C9. Running the same chain twice in succession — two `Run` calls,
the second starting from the chain object and world left by the first —
returns the same (result, error) pair both times, provided the external
behaviour is unchanged between runs: same load outcome, rule predicates
are base predicates (the only kind the public API can put in a rule),
their closures' behaviour does not depend on the invocation count, and
every cached value is consistent (true of the initial empty world).  This
holds because `Run` resets `stop`/`err`/`interval` and allocates a fresh
predicate cache, so the outcome is a function of the rule list and the
load outcome alone. -/
theorem run_idempotent (h : Heap) (n : Nat) (c : ChainObj) (le : Option Nat) (w : World)
    (hbase : BaseOnlyRules h c.Rules) (hconst : ConstFun h) (hok : CacheOK h w)
    (out1 out2 : CtrlResult × Option Nat) (c1 c2 : ChainObj) (w1 w2 : World)
    (h1 : Run h n c le w = some (out1, c1, w1))
    (h2 : Run h n c1 le w1 = some (out2, c2, w2)) :
    out2 = out1 := by
  obtain ⟨heq1, hpres1⟩ := (runChain_agrees h hconst n).1 c le w hbase hok
  obtain ⟨hokw1, hrules1⟩ := hpres1 out1 c1 w1 h1
  obtain ⟨heq2, -⟩ :=
    (runChain_agrees h hconst n).1 c1 le w1 (by rw [hrules1]; exact hbase) hokw1
  have e1 : RunP h n c.Rules le = some out1 := by rw [← heq1, h1]; rfl
  have e2 : RunP h n c1.Rules le = some out2 := by rw [← heq2, h2]; rfl
  rw [hrules1] at e2
  exact Option.some.inj (e2.symm.trans e1)

/-- One-rule chain for the C9 witness: when predicate 0 holds, request a
requeue delay of 7. -/
def c9chain : ChainObj := ⟨[(some 0, .requeue 7)], 0, false, none, 0⟩

/-- Chain object after the first run. -/
def c9c1 : ChainObj := ⟨[(some 0, .requeue 7)], 0, false, none, 7⟩

/-- World after the first run: cache 0 allocated, predicate 0 memoized. -/
def c9w1 : World := addToCache (bumpCall { emptyWorld with nextCache := 1 } 0) 0 0 true

/-- Chain object after the second run (fresh cache 1). -/
def c9c2 : ChainObj := ⟨[(some 0, .requeue 7)], 1, false, none, 7⟩

/-- World after the second run: cache 1 allocated, predicate 0 memoized
there as well. -/
def c9w2 : World := addToCache (bumpCall { c9w1 with nextCache := 2 } 0) 1 0 true

theorem run_idempotent_witness :
    Run c5h 10 c9chain none emptyWorld = some ((⟨true, 7⟩, none), c9c1, c9w1) ∧
    Run c5h 10 c9c1 none c9w1 = some ((⟨true, 7⟩, none), c9c2, c9w2) ∧
    ((⟨true, 7⟩, none) : CtrlResult × Option Nat) = ((⟨true, 7⟩, none) : CtrlResult × Option Nat) := by
  have hr1 : Run c5h 10 c9chain none emptyWorld = some ((⟨true, 7⟩, none), c9c1, c9w1) := by
    simp +decide [Run, runRules, runStep, runAct, Eval, evalDef, doRequeue, c9chain, c9c1,
      c9w1, c5h, emptyWorld, isInCache, lookupA, addToCache, bumpCall, insertA]
  have hr2 : Run c5h 10 c9c1 none c9w1 = some ((⟨true, 7⟩, none), c9c2, c9w2) := by
    simp +decide [Run, runRules, runStep, runAct, Eval, evalDef, doRequeue, c9chain, c9c1,
      c9c2, c9w1, c9w2, c5h, emptyWorld, isInCache, lookupA, addToCache, bumpCall, insertA]
  refine ⟨hr1, hr2,
    run_idempotent c5h 10 c9chain none emptyWorld ?_ ?_ ?_ _ _ c9c1 c9c2 c9w1 c9w2 hr1 hr2⟩
  · constructor
    · intro r hrr p hp
      exact ⟨0, rfl⟩
    · intro r hrr
      simp [c9chain] at hrr
      rw [hrr]
      exact BaseOnlyA.requeue 7
  · intro idx k
    rfl
  · intro cid p v idx hl hdef
    simp [emptyWorld, lookupA] at hl

end Operchain
